import Mathlib

/-!
Shallow embedding of the robust-regression notebook
(`RobustRegressionMDAvsPGD.ipynb`): the L1 objective and its subgradient,
the Euclidean projection onto the probability simplex, the schedule
computation, and the PGD / MDA iteration loops, together with theorems
settling the specification claims.

Numbers are modelled as exact elements of a linear ordered field
(instantiated at `ℚ` for concrete evaluations and at `ℝ` for the
transcendental schedule formulas); vectors are `List`s and a matrix is a
`List` of rows.
-/

namespace RobustReg

section Generic

variable {K : Type} [LinearOrderedField K]

/-- Dot product of two vectors (the 1-D case of `@`). -/
def dot (a x : List K) : K := (List.zipWith (fun s t => s * t) a x).sum

/-- `A @ x` for a matrix given as a list of rows. -/
def matvec (A : List (List K)) (x : List K) : List K := A.map (fun row => dot row x)

/-- Elementwise vector subtraction. -/
def vsub (a b : List K) : List K := List.zipWith (fun s t => s - t) a b

/-- `np.sign`: `1` on positives, `-1` on negatives and `0` at `0`. -/
def sgn (t : K) : K := if 0 < t then 1 else if t < 0 then -1 else 0

/-- `np.linalg.norm(r, ord=1)` of a column vector: the sum of absolute values. -/
def l1norm (r : List K) : K := (r.map (fun t => |t|)).sum

/-- `objective(A, b, x) = (1/len(x)) * ||A @ x - b||_1`; note that the code
divides by `len(x)`, the number of entries of `x`. -/
def objective (A : List (List K)) (b x : List K) : K :=
  (1 / (x.length : K)) * l1norm (vsub (matvec A x) b)

/-- `A.T` for a rectangular matrix: column `j` collects the entries `A[i][j]`. -/
def matT (A : List (List K)) : List (List K) :=
  (List.range (A.headD []).length).map (fun j => A.map (fun row => row.getD j 0))

/-- `subgrad(A, b, x) = (1/len(x)) * (A.T @ np.sign(A @ x - b))`. -/
def subgrad (A : List (List K)) (b x : List K) : List K :=
  (matvec (matT A) ((vsub (matvec A x) b).map sgn)).map (fun t => (1 / (x.length : K)) * t)

/-- `np.sort(v)[::-1]`: the entries of `v` in descending order. -/
def sortDesc (v : List K) : List K := (List.insertionSort (fun s t => s ≤ t) v).reverse

/-- `np.cumsum`: entry `k` is the sum of the first `k+1` entries. -/
def cumsum (l : List K) : List K := (List.range l.length).map (fun k => (l.take (k + 1)).sum)

/-- `cssv = np.cumsum(u) - 1` for `u` the descending sort of `v`. -/
def cssvL (v : List K) : List K := (cumsum (sortDesc v)).map (fun s => s - 1)

/-- The Boolean condition `u[i] > cssv[i] / (i+1)` from `project_onto_simplex`. -/
def qualb (v : List K) (i : ℕ) : Bool :=
  decide ((cssvL v).getD i 0 / ((i : K) + 1) < (sortDesc v).getD i 0)

/-- `rho = np.nonzero(u > cssv / np.arange(1, n+1))[-1][-1]`: the largest index
satisfying the threshold condition (`0` as a junk default when none exists,
which never happens on a non-empty input). -/
def rhoIdx (v : List K) : ℕ :=
  (((List.range v.length).filter (fun i => qualb v i)).getLast?).getD 0

/-- `theta = cssv[rho] / (rho + 1)`. -/
def thetaOf (v : List K) : K := (cssvL v).getD (rhoIdx v) 0 / ((rhoIdx v : K) + 1)

/-- `project_onto_simplex(v) = np.maximum(v - theta, 0)`. -/
def project_onto_simplex (v : List K) : List K := v.map (fun t => max (t - thetaOf v) 0)

/-- Python `round`: round half to even. -/
def pyRound [FloorRing K] (t : K) : ℤ :=
  if Int.fract t < 1 / 2 then ⌊t⌋
  else if (1 : K) / 2 < Int.fract t then ⌊t⌋ + 1
  else if Even ⌊t⌋ then ⌊t⌋ else ⌊t⌋ + 1

/-- The maximum entry of a vector (`np.max`); junk value `0` on the empty list. -/
def vecMax (l : List K) : K :=
  match l with
  | [] => 0
  | a :: t => t.foldl max a

end Generic

/-- `k` applications of the loop body `f` to the starting column `x0`. -/
def iterSteps {σ : Type} (f : σ → σ) (x0 : σ) : ℕ → σ
  | 0 => x0
  | k + 1 => f (iterSteps f x0 k)

/-- The trajectory matrix as the list of its `T` columns: column `i` holds
`i` applications of the loop body to the initial column. -/
def trajOf {σ : Type} (f : σ → σ) (x0 : σ) (T : ℕ) : List σ :=
  (List.range T).map (iterSteps f x0)

noncomputable section RealAlgs

/-- The initial column `np.ones(m)/m`. -/
def unifPt (m : ℕ) : List ℝ := List.replicate m (1 / (m : ℝ))

/-- One PGD loop iteration: `project_onto_simplex(x - alpha * subgrad(A, b, x))`. -/
def pgdStep (A : List (List ℝ)) (b : List ℝ) (alpha : ℝ) (x : List ℝ) : List ℝ :=
  project_onto_simplex (vsub x ((subgrad A b x).map (fun g => alpha * g)))

/-- The schedule block of `pgd`.  `eig0` stands for `np.linalg.eigvals(A.T @ A)[0]`,
the first eigenvalue returned by the external LAPACK routine (modelled as an
input since its output order is not specified); `L = sqrt(eig0)`, `R = 1`.
Returns `none` when the `assert` fails (both arguments absent); otherwise the
pair `(T, alpha)`, with `alpha` computed from the pre-rounding horizon in the
`epsilon` branch, exactly as in the source. -/
def pgdSchedule (eig0 : ℝ) (epsilon : Option ℝ) (T : Option ℤ) : Option (ℤ × ℝ) :=
  let L := Real.sqrt eig0
  let R : ℝ := 1
  match epsilon, T with
  | none, none => none
  | some eps, _ =>
      let Tr := (R * L / eps) ^ 2
      some (pyRound Tr, (R / L) * Real.sqrt (1 / Tr))
  | none, some t => some (t, (R / L) * Real.sqrt (1 / (t : ℝ)))

/-- Conversion of an optional `ℕ` horizon argument to the integer horizon used
by the schedule blocks. -/
def natHorizon (T : Option ℕ) : Option ℤ :=
  match T with
  | none => none
  | some t => some (t : ℤ)

/-- `pgd(A, b, x, epsilon, T)`.  Returns `none` when the source raises: the
`assert` (no schedule argument), or a non-positive horizon (for which
`np.zeros((m, T))` / `x_gd[:,0]` raises).  Otherwise the trajectory of the
scheduled horizon, starting from the uniform column; the argument `x` is used
only through `len(x)`, as in the source. -/
def pgd (eig0 : ℝ) (A : List (List ℝ)) (b x : List ℝ) (epsilon : Option ℝ)
    (T : Option ℕ) : Option (List (List ℝ)) :=
  match pgdSchedule eig0 epsilon (natHorizon T) with
  | none => none
  | some (t, alpha) =>
      if 1 ≤ t then some (trajOf (pgdStep A b alpha) (unifPt x.length) t.toNat) else none

/-- `L = 1/m * np.max(np.sum(np.abs(A), axis=0))` with `m = len(x)`: the largest
column sum of absolute values of `A`, divided by the length of `x`. -/
def mdaLip (A : List (List ℝ)) (m : ℕ) : ℝ :=
  (1 / (m : ℝ)) * ((matT A).map (fun col => l1norm col)).foldr max 0

/-- The schedule block of `mda`: `L = mdaLip`, `R = sqrt(log m)`, `rho = 1`,
with `alpha` computed from the pre-rounding horizon in the `epsilon` branch,
exactly as in the source. -/
def mdaSchedule (A : List (List ℝ)) (m : ℕ) (epsilon : Option ℝ) (T : Option ℤ) :
    Option (ℤ × ℝ) :=
  let L := mdaLip A m
  let R := Real.sqrt (Real.log (m : ℝ))
  let rho : ℝ := 1
  match epsilon, T with
  | none, none => none
  | some eps, _ =>
      let Tr := (R * L / eps) ^ 2 * 2 / rho
      some (pyRound Tr, (R / L) * Real.sqrt (2 * rho / Tr))
  | none, some t => some (t, (R / L) * Real.sqrt (2 * rho / (t : ℝ)))

/-- One MDA loop iteration: `y = x * exp(-alpha * g)` followed by `y / sum(y)`. -/
def mdaStep (A : List (List ℝ)) (b : List ℝ) (alpha : ℝ) (x : List ℝ) : List ℝ :=
  let g := subgrad A b x
  let y := List.zipWith (fun xi gi => xi * Real.exp (-(alpha * gi))) x g
  y.map (fun t => t / y.sum)

/-- `mda(A, b, x, epsilon, T)`, with the same `Option` conventions as `pgd`. -/
def mda (A : List (List ℝ)) (b x : List ℝ) (epsilon : Option ℝ) (T : Option ℕ) :
    Option (List (List ℝ)) :=
  match mdaSchedule A x.length epsilon (natHorizon T) with
  | none => none
  | some (t, alpha) =>
      if 1 ≤ t then some (trajOf (mdaStep A b alpha) (unifPt x.length) t.toNat) else none

/-- The SimplexPoint invariant: all entries nonnegative and summing to `1`. -/
def SimplexPt (p : List ℝ) : Prop := (∀ t ∈ p, 0 ≤ t) ∧ p.sum = 1

end RealAlgs

section ProjectionLemmas

variable {K : Type} [LinearOrderedField K]

lemma sortDesc_perm (v : List K) : (sortDesc v).Perm v :=
  (List.reverse_perm _).trans (List.perm_insertionSort _ v)

lemma sortDesc_length (v : List K) : (sortDesc v).length = v.length :=
  (sortDesc_perm v).length_eq

lemma sortDesc_pairwise (v : List K) : (sortDesc v).Pairwise (fun s t => t ≤ s) := by
  have h := List.sorted_insertionSort (fun s t : K => s ≤ t) v
  exact List.pairwise_reverse.mpr h

lemma sortDesc_getD_mono (v : List K) {i j : ℕ} (hij : i ≤ j) (hj : j < v.length) :
    (sortDesc v).getD j 0 ≤ (sortDesc v).getD i 0 := by
  have hj' : j < (sortDesc v).length := by rw [sortDesc_length]; exact hj
  have hi' : i < (sortDesc v).length := lt_of_le_of_lt hij hj'
  rcases eq_or_lt_of_le hij with rfl | hlt
  · exact le_refl _
  · have hp := List.pairwise_iff_get.mp (sortDesc_pairwise v)
    rw [List.getD_eq_get _ _ hj', List.getD_eq_get _ _ hi']
    exact hp ⟨i, hi'⟩ ⟨j, hj'⟩ hlt

lemma cssvL_length (v : List K) : (cssvL v).length = v.length := by
  simp [cssvL, cumsum, sortDesc_length]

lemma cssvL_getD (v : List K) {i : ℕ} (hi : i < v.length) :
    (cssvL v).getD i 0 = ((sortDesc v).take (i + 1)).sum - 1 := by
  have h1 : i < (cssvL v).length := by rw [cssvL_length]; exact hi
  rw [List.getD_eq_get _ _ h1]
  simp [cssvL, cumsum, List.get_map, List.get_range, sortDesc_length]

lemma qualb_iff (v : List K) {i : ℕ} (hi : i < v.length) :
    qualb v i = true ↔
      ((sortDesc v).take (i + 1)).sum - 1 < ((i : K) + 1) * (sortDesc v).getD i 0 := by
  have hpos : (0 : K) < (i : K) + 1 := by positivity
  rw [qualb, decide_eq_true_iff, cssvL_getD v hi, div_lt_iff hpos, mul_comm]

lemma sortDesc_take_one (v : List K) (hv : v ≠ []) :
    ((sortDesc v).take 1).sum = (sortDesc v).getD 0 0 := by
  have hlen : 0 < (sortDesc v).length := by
    rw [sortDesc_length]; exact List.length_pos.mpr hv
  cases hs : sortDesc v with
  | nil => rw [hs] at hlen; simp at hlen
  | cons a t => simp

lemma qualb_zero (v : List K) (hv : v ≠ []) : qualb v 0 = true := by
  have hlen : 0 < v.length := List.length_pos.mpr hv
  rw [qualb_iff v hlen, sortDesc_take_one v hv]
  push_cast
  linarith

lemma rho_spec (v : List K) (hv : v ≠ []) :
    rhoIdx v < v.length ∧ qualb v (rhoIdx v) = true := by
  have h0 : 0 ∈ (List.range v.length).filter (fun i => qualb v i) := by
    rw [List.mem_filter]
    exact ⟨List.mem_range.mpr (List.length_pos.mpr hv), qualb_zero v hv⟩
  have hne : (List.range v.length).filter (fun i => qualb v i) ≠ [] := by
    intro h
    rw [h] at h0
    exact absurd h0 (List.not_mem_nil 0)
  have hlast : rhoIdx v ∈ (List.range v.length).filter (fun i => qualb v i) := by
    rw [rhoIdx, List.getLast?_eq_getLast _ hne, Option.getD_some]
    exact List.getLast_mem hne
  rw [List.mem_filter, List.mem_range] at hlast
  exact hlast

lemma le_getLastD_of_pairwise_lt :
    ∀ (l : List ℕ), l.Pairwise (fun a b => a < b) → ∀ a ∈ l, a ≤ (l.getLast?).getD 0
  | [], _, a, ha => absurd ha (List.not_mem_nil a)
  | [b], _, a, ha => by
      simp only [List.mem_singleton] at ha
      subst ha
      simp
  | b :: c :: t, hp, a, ha => by
      rw [List.getLast?_cons_cons]
      rcases List.mem_cons.mp ha with rfl | ha'
      · have hbc : ∀ x ∈ c :: t, a < x := (List.pairwise_cons.mp hp).1
        have hne : (c :: t) ≠ [] := by simp
        have hmem : ((c :: t).getLast?).getD 0 ∈ c :: t := by
          rw [List.getLast?_eq_getLast _ hne, Option.getD_some]
          exact List.getLast_mem hne
        exact le_of_lt (hbc _ hmem)
      · exact le_getLastD_of_pairwise_lt (c :: t) (List.pairwise_cons.mp hp).2 a ha'

lemma rho_greatest (v : List K) {i : ℕ} (hi : i < v.length) (hq : qualb v i = true) :
    i ≤ rhoIdx v := by
  have hmem : i ∈ (List.range v.length).filter (fun j => qualb v j) := by
    rw [List.mem_filter]
    exact ⟨List.mem_range.mpr hi, hq⟩
  have hp : ((List.range v.length).filter (fun j => qualb v j)).Pairwise (fun a b => a < b) :=
    (List.pairwise_lt_range v.length).filter _
  exact le_getLastD_of_pairwise_lt _ hp i hmem

lemma thetaOf_eq (v : List K) (hv : v ≠ []) :
    thetaOf v = (((sortDesc v).take (rhoIdx v + 1)).sum - 1) / ((rhoIdx v : K) + 1) := by
  rw [thetaOf, cssvL_getD v (rho_spec v hv).1]

lemma theta_lt_rho (v : List K) (hv : v ≠ []) :
    thetaOf v < (sortDesc v).getD (rhoIdx v) 0 := by
  have h := (qualb_iff v (rho_spec v hv).1).mp (rho_spec v hv).2
  rw [thetaOf_eq v hv, div_lt_iff (by positivity), mul_comm]
  exact h

lemma getD_eq_getElem' (l : List K) {i : ℕ} (h : i < l.length) : l.getD i 0 = l[i] := by
  rw [List.getD_eq_get _ _ h]
  rfl

lemma le_theta_of_gt_rho (v : List K) (hv : v ≠ []) {i : ℕ} (hi : i < v.length)
    (hri : rhoIdx v < i) : (sortDesc v).getD i 0 ≤ thetaOf v := by
  have hρ1 : rhoIdx v + 1 < v.length := lt_of_le_of_lt hri hi
  have hρ1u : rhoIdx v + 1 < (sortDesc v).length := by rw [sortDesc_length]; exact hρ1
  have hnq : ¬ (qualb v (rhoIdx v + 1) = true) := by
    intro h
    have := rho_greatest v hρ1 h
    omega
  rw [qualb_iff v hρ1, not_lt] at hnq
  have hsucc : ((sortDesc v).take (rhoIdx v + 1 + 1)).sum
      = ((sortDesc v).take (rhoIdx v + 1)).sum + (sortDesc v).getD (rhoIdx v + 1) 0 := by
    rw [List.sum_take_succ _ _ hρ1u, getD_eq_getElem' _ hρ1u]
  have key : ((rhoIdx v : K) + 1) * (sortDesc v).getD (rhoIdx v + 1) 0
      ≤ ((sortDesc v).take (rhoIdx v + 1)).sum - 1 := by
    rw [hsucc] at hnq
    push_cast at hnq ⊢
    nlinarith [hnq]
  have h1 : (sortDesc v).getD (rhoIdx v + 1) 0 ≤ thetaOf v := by
    rw [thetaOf_eq v hv, le_div_iff (by positivity), mul_comm]
    exact key
  exact le_trans (sortDesc_getD_mono v hri hi) h1

lemma map_sum_eq_range_sum (f : K → K) :
    ∀ (l : List K), (l.map f).sum = ∑ i ∈ Finset.range l.length, f (l.getD i 0)
  | [] => by simp
  | a :: t => by
      rw [List.map_cons, List.sum_cons, map_sum_eq_range_sum f t, List.length_cons,
        Finset.sum_range_succ']
      simp [List.getD_cons_succ, List.getD_cons_zero, add_comm]

lemma take_sum_eq_range_sum (l : List K) :
    ∀ (k : ℕ), k ≤ l.length → (l.take k).sum = ∑ i ∈ Finset.range k, l.getD i 0 := by
  intro k
  induction k with
  | zero => simp
  | succ k ih =>
      intro hk
      have hk' : k < l.length := hk
      rw [List.sum_take_succ l k hk', Finset.sum_range_succ, ih (le_of_lt hk'),
        getD_eq_getElem' _ hk']

lemma project_sum_eq_one (v : List K) (hv : v ≠ []) : (project_onto_simplex v).sum = 1 := by
  have hρlen : rhoIdx v < v.length := (rho_spec v hv).1
  have hperm : (List.map (fun t => max (t - thetaOf v) 0) (sortDesc v)).Perm
      (List.map (fun t => max (t - thetaOf v) 0) v) := (sortDesc_perm v).map _
  have h1 : (project_onto_simplex v).sum
      = ((sortDesc v).map (fun t => max (t - thetaOf v) 0)).sum := by
    rw [project_onto_simplex]
    exact (hperm.sum_eq).symm
  rw [h1, map_sum_eq_range_sum, sortDesc_length]
  have hsplit : ∑ i ∈ Finset.range v.length, max ((sortDesc v).getD i 0 - thetaOf v) 0
      = (∑ i ∈ Finset.range (rhoIdx v + 1), max ((sortDesc v).getD i 0 - thetaOf v) 0)
        + ∑ i ∈ Finset.Ico (rhoIdx v + 1) v.length,
            max ((sortDesc v).getD i 0 - thetaOf v) 0 := by
    rw [Finset.range_eq_Ico]
    exact (Finset.sum_Ico_consecutive (fun i => max ((sortDesc v).getD i 0 - thetaOf v) 0)
      (Nat.zero_le (rhoIdx v + 1)) hρlen).symm
  rw [hsplit]
  have hfirst : ∑ i ∈ Finset.range (rhoIdx v + 1), max ((sortDesc v).getD i 0 - thetaOf v) 0
      = ∑ i ∈ Finset.range (rhoIdx v + 1), ((sortDesc v).getD i 0 - thetaOf v) := by
    refine Finset.sum_congr rfl (fun i hi => ?_)
    rw [Finset.mem_range] at hi
    have hle : thetaOf v ≤ (sortDesc v).getD i 0 := by
      have h2 : (sortDesc v).getD (rhoIdx v) 0 ≤ (sortDesc v).getD i 0 :=
        sortDesc_getD_mono v (by omega) hρlen
      exact le_trans (le_of_lt (theta_lt_rho v hv)) h2
    rw [max_eq_left (by linarith)]
  have hsecond : ∑ i ∈ Finset.Ico (rhoIdx v + 1) v.length,
      max ((sortDesc v).getD i 0 - thetaOf v) 0 = 0 := by
    refine Finset.sum_eq_zero (fun i hi => ?_)
    rw [Finset.mem_Ico] at hi
    have hle : (sortDesc v).getD i 0 ≤ thetaOf v :=
      le_theta_of_gt_rho v hv hi.2 (by omega)
    rw [max_eq_right (by linarith)]
  rw [hfirst, hsecond, add_zero, Finset.sum_sub_distrib, Finset.sum_const, Finset.card_range,
    ← take_sum_eq_range_sum (sortDesc v) (rhoIdx v + 1) (by rw [sortDesc_length]; omega)]
  rw [thetaOf_eq v hv, nsmul_eq_mul]
  push_cast
  rw [mul_div_cancel₀ _ (by positivity : ((rhoIdx v : K) + 1) ≠ 0)]
  ring

lemma project_nonneg (v : List K) : ∀ t ∈ project_onto_simplex v, 0 ≤ t := by
  intro t ht
  rw [project_onto_simplex, List.mem_map] at ht
  obtain ⟨a, _, rfl⟩ := ht
  exact le_max_right _ _

lemma project_length (v : List K) : (project_onto_simplex v).length = v.length := by
  simp [project_onto_simplex]

end ProjectionLemmas

section TrajectoryLemmas

lemma subgrad_length (A : List (List ℝ)) (b x : List ℝ) :
    (subgrad A b x).length = (A.headD []).length := by
  simp [subgrad, matvec, matT]

lemma vsub_grad_length (A : List (List ℝ)) (b x : List ℝ) (alpha : ℝ)
    (hA : (A.headD []).length = x.length) :
    (vsub x ((subgrad A b x).map (fun g => alpha * g))).length = x.length := by
  rw [vsub, List.length_zipWith, List.length_map, subgrad_length, hA, min_self]

lemma pgdStep_length (A : List (List ℝ)) (b : List ℝ) (alpha : ℝ) (x : List ℝ)
    (hA : (A.headD []).length = x.length) :
    (pgdStep A b alpha x).length = x.length := by
  rw [pgdStep, project_length, vsub_grad_length A b x alpha hA]

lemma pgdStep_simplexPt (A : List (List ℝ)) (b : List ℝ) (alpha : ℝ) (x : List ℝ)
    (hx : x ≠ []) (hA : (A.headD []).length = x.length) :
    SimplexPt (pgdStep A b alpha x) := by
  have hne : vsub x ((subgrad A b x).map (fun g => alpha * g)) ≠ [] := by
    have hpos : 0 < (vsub x ((subgrad A b x).map (fun g => alpha * g))).length := by
      rw [vsub_grad_length A b x alpha hA]
      exact List.length_pos.mpr hx
    exact List.length_pos.mp hpos
  exact ⟨project_nonneg _, project_sum_eq_one _ hne⟩

lemma unifPt_length (m : ℕ) : (unifPt m).length = m := by
  simp [unifPt]

lemma unifPt_simplexPt (m : ℕ) (hm : 1 ≤ m) : SimplexPt (unifPt m) := by
  constructor
  · intro t ht
    rw [unifPt, List.mem_replicate] at ht
    rw [ht.2]
    positivity
  · rw [unifPt, List.sum_replicate, nsmul_eq_mul]
    have hm0 : (m : ℝ) ≠ 0 := by positivity
    field_simp

lemma unifPt_pos (m : ℕ) (hm : 1 ≤ m) : ∀ t ∈ unifPt m, 0 < t := by
  intro t ht
  rw [unifPt, List.mem_replicate] at ht
  rw [ht.2]
  have hm0 : (0 : ℝ) < (m : ℝ) := by positivity
  positivity

lemma pgd_iter_invariant (A : List (List ℝ)) (b : List ℝ) (alpha : ℝ) (m : ℕ) (hm : 1 ≤ m)
    (hA : (A.headD []).length = m) :
    ∀ k, (iterSteps (pgdStep A b alpha) (unifPt m) k).length = m ∧
      SimplexPt (iterSteps (pgdStep A b alpha) (unifPt m) k)
  | 0 => ⟨unifPt_length m, unifPt_simplexPt m hm⟩
  | k + 1 => by
      obtain ⟨hlen, _⟩ := pgd_iter_invariant A b alpha m hm hA k
      have hx : iterSteps (pgdStep A b alpha) (unifPt m) k ≠ [] := by
        apply List.length_pos.mp
        rw [hlen]
        exact hm
      have hA' : (A.headD []).length = (iterSteps (pgdStep A b alpha) (unifPt m) k).length := by
        rw [hlen, hA]
      constructor
      · show (pgdStep A b alpha _).length = m
        rw [pgdStep_length A b alpha _ hA', hlen]
      · exact pgdStep_simplexPt A b alpha _ hx hA'

lemma zipWith_mem {α β γ : Type} (f : α → β → γ) :
    ∀ (l1 : List α) (l2 : List β) (t : γ), t ∈ List.zipWith f l1 l2 →
      ∃ a ∈ l1, ∃ c ∈ l2, t = f a c
  | [], _, t, ht => by simp at ht
  | _ :: _, [], t, ht => by simp at ht
  | a :: l1, c :: l2, t, ht => by
      rw [List.zipWith_cons_cons] at ht
      rcases List.mem_cons.mp ht with rfl | ht'
      · exact ⟨a, by simp, c, by simp, rfl⟩
      · obtain ⟨a', ha', c', hc', rfl⟩ := zipWith_mem f l1 l2 t ht'
        exact ⟨a', by simp [ha'], c', by simp [hc'], rfl⟩

lemma sum_map_div (l : List ℝ) (s : ℝ) : (l.map (fun t => t / s)).sum = l.sum / s := by
  induction l with
  | nil => simp
  | cons a t ih => simp [ih, add_div]

lemma mdaStep_def (A : List (List ℝ)) (b : List ℝ) (alpha : ℝ) (x : List ℝ) :
    mdaStep A b alpha x =
      (List.zipWith (fun xi gi => xi * Real.exp (-(alpha * gi))) x (subgrad A b x)).map
        (fun t => t /
          (List.zipWith (fun xi gi => xi * Real.exp (-(alpha * gi))) x (subgrad A b x)).sum) :=
  rfl

lemma mdaStep_inv (A : List (List ℝ)) (b : List ℝ) (alpha : ℝ) (x : List ℝ)
    (hx : x ≠ []) (hpos : ∀ t ∈ x, 0 < t) (hA : (A.headD []).length = x.length) :
    (mdaStep A b alpha x).length = x.length ∧ (∀ t ∈ mdaStep A b alpha x, 0 < t) ∧
      (mdaStep A b alpha x).sum = 1 := by
  have hylen : (List.zipWith (fun xi gi => xi * Real.exp (-(alpha * gi)))
      x (subgrad A b x)).length = x.length := by
    rw [List.length_zipWith, subgrad_length, hA, min_self]
  have hyne : List.zipWith (fun xi gi => xi * Real.exp (-(alpha * gi)))
      x (subgrad A b x) ≠ [] := by
    apply List.length_pos.mp
    rw [hylen]
    exact List.length_pos.mpr hx
  have hypos : ∀ t ∈ List.zipWith (fun xi gi => xi * Real.exp (-(alpha * gi)))
      x (subgrad A b x), 0 < t := by
    intro t ht
    obtain ⟨a, ha, c, _, rfl⟩ := zipWith_mem _ x (subgrad A b x) t ht
    exact mul_pos (hpos a ha) (Real.exp_pos _)
  have hspos : 0 < (List.zipWith (fun xi gi => xi * Real.exp (-(alpha * gi)))
      x (subgrad A b x)).sum := List.sum_pos _ hypos hyne
  refine ⟨?_, ?_, ?_⟩
  · rw [mdaStep_def, List.length_map, hylen]
  · intro t ht
    rw [mdaStep_def, List.mem_map] at ht
    obtain ⟨a, ha, rfl⟩ := ht
    exact div_pos (hypos a ha) hspos
  · rw [mdaStep_def, sum_map_div, div_self (ne_of_gt hspos)]

lemma mda_iter_invariant (A : List (List ℝ)) (b : List ℝ) (alpha : ℝ) (m : ℕ) (hm : 1 ≤ m)
    (hA : (A.headD []).length = m) :
    ∀ k, (iterSteps (mdaStep A b alpha) (unifPt m) k).length = m ∧
      (∀ t ∈ iterSteps (mdaStep A b alpha) (unifPt m) k, 0 < t) ∧
      (iterSteps (mdaStep A b alpha) (unifPt m) k).sum = 1
  | 0 => ⟨unifPt_length m, unifPt_pos m hm, (unifPt_simplexPt m hm).2⟩
  | k + 1 => by
      obtain ⟨hlen, hpos, _⟩ := mda_iter_invariant A b alpha m hm hA k
      have hx : iterSteps (mdaStep A b alpha) (unifPt m) k ≠ [] := by
        apply List.length_pos.mp
        rw [hlen]
        exact hm
      have hA' : (A.headD []).length
          = (iterSteps (mdaStep A b alpha) (unifPt m) k).length := by
        rw [hlen, hA]
      obtain ⟨h1, h2, h3⟩ := mdaStep_inv A b alpha _ hx hpos hA'
      exact ⟨by rw [iterSteps, h1, hlen], h2, h3⟩

end TrajectoryLemmas

section FixedHorizon

lemma pgd_fixedT (eig0 : ℝ) (A : List (List ℝ)) (b x : List ℝ) (T : ℕ) (hT : 1 ≤ T) :
    pgd eig0 A b x none (some T) =
      some (trajOf (pgdStep A b ((1 / Real.sqrt eig0) * Real.sqrt (1 / (T : ℝ))))
        (unifPt x.length) T) := by
  have h1 : (1 : ℤ) ≤ (T : ℤ) := by exact_mod_cast hT
  simp only [pgd, pgdSchedule, natHorizon]
  rw [if_pos h1]
  norm_num

lemma mda_fixedT (A : List (List ℝ)) (b x : List ℝ) (T : ℕ) (hT : 1 ≤ T) :
    mda A b x none (some T) =
      some (trajOf (mdaStep A b ((Real.sqrt (Real.log (x.length : ℝ)) / mdaLip A x.length) *
        Real.sqrt (2 * 1 / (T : ℝ)))) (unifPt x.length) T) := by
  have h1 : (1 : ℤ) ≤ (T : ℤ) := by exact_mod_cast hT
  simp only [mda, mdaSchedule, natHorizon]
  rw [if_pos h1]
  norm_num

end FixedHorizon

/-- **C1**: for every valid problem instance (a non-empty matrix `A` whose rows
all have the length of the initial point `x0`, with `m = len x0 ≥ 1` and a
target `b` with one entry per row of `A`) and every fixed horizon `T ≥ 1`,
both `pgd` and `mda` return a trajectory every one of whose columns satisfies
the SimplexPoint invariant: all entries nonnegative and summing to `1`. -/
theorem pgd_mda_trajectory_simplex_invariant (eig0 : ℝ) (A : List (List ℝ))
    (b x0 : List ℝ) (T : ℕ) (hA : A ≠ []) (hrect : ∀ r ∈ A, r.length = x0.length)
    (hb : b.length = A.length) (hm : 1 ≤ x0.length) (hT : 1 ≤ T) :
    (∃ tr, pgd eig0 A b x0 none (some T) = some tr ∧ ∀ p ∈ tr, SimplexPt p) ∧
    (∃ tr, mda A b x0 none (some T) = some tr ∧ ∀ p ∈ tr, SimplexPt p) := by
  have hhead : (A.headD []).length = x0.length := by
    cases A with
    | nil => exact absurd rfl hA
    | cons r rest => exact hrect r (by simp)
  refine ⟨⟨_, pgd_fixedT eig0 A b x0 T hT, ?_⟩, ⟨_, mda_fixedT A b x0 T hT, ?_⟩⟩
  · intro p hp
    rw [trajOf, List.mem_map] at hp
    obtain ⟨k, _, rfl⟩ := hp
    exact (pgd_iter_invariant A b _ x0.length hm hhead k).2
  · intro p hp
    rw [trajOf, List.mem_map] at hp
    obtain ⟨k, _, rfl⟩ := hp
    obtain ⟨_, h2, h3⟩ := mda_iter_invariant A b _ x0.length hm hhead k
    exact ⟨fun t ht => le_of_lt (h2 t ht), h3⟩

/-- Witness for C1 at the concrete instance `A = [[1]]`, `b = [0]`, `x0 = [1]`,
`T = 1`, `eig0 = 1`. -/
theorem pgd_mda_trajectory_simplex_invariant_witness :
    (∃ tr, pgd 1 [[1]] [0] [1] none (some 1) = some tr ∧ ∀ p ∈ tr, SimplexPt p) ∧
    (∃ tr, mda [[1]] [0] [1] none (some 1) = some tr ∧ ∀ p ∈ tr, SimplexPt p) :=
  pgd_mda_trajectory_simplex_invariant 1 [[1]] [0] [1] 1 (by simp)
    (by
      intro r hr
      rw [List.mem_singleton] at hr
      subst hr
      rfl)
    (by simp) (by simp) (by norm_num)

/-- **C9**: with neither `epsilon` nor `T` supplied, both `pgd` and `mda` fail
(the modelled `assert` yields `none`) before any iteration; with both supplied,
`epsilon` silently takes priority, so the result is exactly that of the call
supplying `epsilon` alone. -/
theorem schedule_argument_contract (eig0 : ℝ) (A : List (List ℝ)) (b x : List ℝ)
    (eps : ℝ) (T : ℕ) :
    pgd eig0 A b x none none = none ∧ mda A b x none none = none ∧
    pgd eig0 A b x (some eps) (some T) = pgd eig0 A b x (some eps) none ∧
    mda A b x (some eps) (some T) = mda A b x (some eps) none :=
  ⟨rfl, rfl, rfl, rfl⟩

/-- **C10**: with a fixed horizon `T ≥ 1`, the trajectories returned by `pgd`
and `mda` depend on the initial-point argument only through its length, and the
first column of each returned trajectory is the uniform vector `(1/m, ..., 1/m)`
regardless of the values in that argument. -/
theorem initial_point_independence (eig0 : ℝ) (A : List (List ℝ)) (b x y : List ℝ)
    (T : ℕ) (hxy : x.length = y.length) (hT : 1 ≤ T) :
    pgd eig0 A b x none (some T) = pgd eig0 A b y none (some T) ∧
    mda A b x none (some T) = mda A b y none (some T) ∧
    (pgd eig0 A b x none (some T)).map (fun tr => tr.headD [])
      = some (List.replicate x.length (1 / (x.length : ℝ))) ∧
    (mda A b x none (some T)).map (fun tr => tr.headD [])
      = some (List.replicate x.length (1 / (x.length : ℝ))) := by
  have hhead : ∀ f : List ℝ → List ℝ,
      (trajOf f (unifPt x.length) T).headD [] = unifPt x.length := by
    intro f
    cases T with
    | zero => omega
    | succ k => simp [trajOf, List.range_succ_eq_map, iterSteps]
  refine ⟨?_, ?_, ?_, ?_⟩
  · simp only [pgd]
    rw [hxy]
  · simp only [mda]
    rw [hxy]
  · rw [pgd_fixedT eig0 A b x T hT, Option.map_some', hhead]
    rfl
  · rw [mda_fixedT A b x T hT, Option.map_some', hhead]
    rfl

lemma pyRound_of_fract_lt {t : ℝ} {z : ℤ} (hfl : ⌊t⌋ = z) (h : t - z < 1 / 2) :
    pyRound t = z := by
  have hf : Int.fract t < 1 / 2 := by
    rw [Int.fract, hfl]
    exact h
  rw [pyRound, if_pos hf, hfl]

/-- **C4 counterexample**: at the instance `A = [[1]]` (so that the first — and
only — eigenvalue of `AᵀA` is `1` and `L = sqrt(1) = 1`, `R = 1`) with
`epsilon = 2/3`, the source computes the horizon `T = round((R*L/eps)^2) =
round(9/4) = 2` but the step size `alpha = 2/3 = (R/L)*sqrt(1/(9/4))` from the
pre-rounding value `9/4`, which differs from the claimed
`alpha = (R/L)*sqrt(1/T)` evaluated at the rounded horizon `T = 2`. -/
theorem pgd_schedule_alpha_counterexample :
    pgdSchedule 1 (some (2 / 3)) none = some (2, 2 / 3) ∧
    (2 / 3 : ℝ) ≠ (1 / Real.sqrt 1) * Real.sqrt (1 / ((2 : ℤ) : ℝ)) := by
  constructor
  · have h1 : ((1 : ℝ) * Real.sqrt 1 / (2 / 3)) ^ 2 = 9 / 4 := by
      rw [Real.sqrt_one]
      norm_num
    have h2 : pyRound ((9 : ℝ) / 4) = 2 :=
      pyRound_of_fract_lt (Int.floor_eq_iff.mpr (by norm_num)) (by norm_num)
    have h3 : (1 / Real.sqrt 1) * Real.sqrt (1 / ((9 : ℝ) / 4)) = 2 / 3 := by
      rw [Real.sqrt_one, show (1 / ((9 : ℝ) / 4)) = (2 / 3) ^ 2 by norm_num,
        Real.sqrt_sq (by norm_num : (0 : ℝ) ≤ 2 / 3)]
      norm_num
    simp only [pgdSchedule, h1]
    rw [h2, h3]
  · rw [Real.sqrt_one]
    intro h
    rw [show (1 : ℝ) / 1 = 1 by norm_num, one_mul] at h
    have h2 : ((2 : ℝ) / 3) ^ 2 = (1 : ℝ) / ((2 : ℤ) : ℝ) := by
      rw [h, Real.sq_sqrt (by norm_num : (0 : ℝ) ≤ 1 / ((2 : ℤ) : ℝ))]
    norm_num at h2

/-- **C4 as amended**: with `L = sqrt(eig0)` (where `eig0` is the first
eigenvalue that the external eigenvalue routine returns for `AᵀA`) and `R = 1`:
given `epsilon > 0`, the horizon is `pyRound((R*L/eps)^2)` and the step size is
computed from the pre-rounding horizon, which simplifies to `eps / eig0`; given
a fixed horizon `T`, the step size is `(R/L)*sqrt(1/T)`; any simultaneously
supplied horizon argument is ignored in the `epsilon` branch. -/
theorem pgd_schedule_formulas (eig0 eps : ℝ) (t : Option ℤ) (T : ℤ)
    (h0 : 0 < eig0) (he : 0 < eps) :
    pgdSchedule eig0 (some eps) t
      = some (pyRound ((Real.sqrt eig0 / eps) ^ 2), eps / eig0) ∧
    pgdSchedule eig0 none (some T)
      = some (T, (1 / Real.sqrt eig0) * Real.sqrt (1 / (T : ℝ))) := by
  have hL : 0 < Real.sqrt eig0 := Real.sqrt_pos.mpr h0
  constructor
  · have h1 : ((1 : ℝ) * Real.sqrt eig0 / eps) = Real.sqrt eig0 / eps := by ring
    have h2 : Real.sqrt (1 / (Real.sqrt eig0 / eps) ^ 2) = eps / Real.sqrt eig0 := by
      rw [show (1 / (Real.sqrt eig0 / eps) ^ 2) = (eps / Real.sqrt eig0) ^ 2 by
          field_simp]
      exact Real.sqrt_sq (le_of_lt (div_pos he hL))
    have h3 : (1 / Real.sqrt eig0) * (eps / Real.sqrt eig0) = eps / eig0 := by
      rw [div_mul_div_comm, one_mul, Real.mul_self_sqrt (le_of_lt h0)]
    simp only [pgdSchedule, h1, h2, h3]
  · simp only [pgdSchedule]

/-- Witness for the amended C4 at `eig0 = 1`, `eps = 1`, fixed horizon `1`. -/
theorem pgd_schedule_formulas_witness :
    pgdSchedule 1 (some 1) none
      = some (pyRound ((Real.sqrt 1 / 1) ^ 2), 1 / 1) ∧
    pgdSchedule 1 none (some 1)
      = some (1, (1 / Real.sqrt 1) * Real.sqrt (1 / ((1 : ℤ) : ℝ))) :=
  pgd_schedule_formulas 1 1 none 1 (by norm_num) (by norm_num)

lemma mdaLip_two_rows_one_col : mdaLip [[1], [1]] 1 = 2 := by
  norm_num [mdaLip, matT, l1norm, List.range_succ]

lemma mdaLip_one_row_two_cols : mdaLip [[1, 1]] 2 = 1 / 2 := by
  norm_num [mdaLip, matT, l1norm, List.range_succ]

/-- **C5 counterexample**: (i) for `A = [[1],[1]]` (two rows, one column,
initial point of length `m = 1`) the source computes `L = 2`, dividing the
largest column sum `2` by `m = len(x) = 1` (the number of columns), while the
claimed `(1/n) * max_j sum_i |A[i,j]|` with `n = 2` the number of rows equals
`1`; (ii) for `A = [[1,1]]`, `m = 2`, `epsilon = 1/2`, the source rounds the
horizon `2*log 2` to `1` but computes the step size `alpha = 2` from the
pre-rounding horizon, while the claimed `(R/L)*sqrt(2*rho/T)` at the rounded
horizon `T = 1` is `2*sqrt(log 2)*sqrt(2) > 2`. -/
theorem mda_schedule_counterexample :
    mdaLip [[1], [1]] 1 = 2 ∧
    (1 / (([[1], [1]] : List (List ℝ)).length : ℝ))
        * ((matT ([[1], [1]] : List (List ℝ))).map (fun col => l1norm col)).foldr max 0
      = 1 ∧
    (2 : ℝ) ≠ 1 ∧
    mdaSchedule [[1, 1]] 2 (some (1 / 2)) none = some (1, 2) ∧
    (2 : ℝ) ≠ (Real.sqrt (Real.log (2 : ℝ)) / mdaLip [[1, 1]] 2)
        * Real.sqrt (2 * 1 / ((1 : ℤ) : ℝ)) := by
  have hlog0 : (0 : ℝ) < Real.log 2 := Real.log_pos (by norm_num)
  have hsqlog : Real.sqrt (Real.log 2) ^ 2 = Real.log 2 := Real.sq_sqrt (le_of_lt hlog0)
  refine ⟨mdaLip_two_rows_one_col, ?_, by norm_num, ?_, ?_⟩
  · norm_num [matT, l1norm, List.range_succ]
  · have hTr : (Real.sqrt (Real.log ((2 : ℕ) : ℝ)) * mdaLip [[1, 1]] 2 / (1 / 2)) ^ 2 * 2 / 1
        = Real.log 2 * 2 := by
      rw [mdaLip_one_row_two_cols]
      push_cast
      rw [show Real.sqrt (Real.log 2) * (1 / 2) / (1 / 2) = Real.sqrt (Real.log 2) by ring]
      rw [hsqlog]
      ring
    have hfl : ⌊Real.log 2 * 2⌋ = 1 := by
      rw [Int.floor_eq_iff]
      constructor
      · push_cast
        nlinarith [Real.log_two_gt_d9]
      · push_cast
        nlinarith [Real.log_two_lt_d9]
    have hround : pyRound (Real.log 2 * 2) = 1 := by
      apply pyRound_of_fract_lt hfl
      push_cast
      nlinarith [Real.log_two_lt_d9]
    have halpha : (Real.sqrt (Real.log ((2 : ℕ) : ℝ)) / mdaLip [[1, 1]] 2)
        * Real.sqrt (2 * 1 / (Real.log 2 * 2)) = 2 := by
      rw [mdaLip_one_row_two_cols]
      push_cast
      rw [show (2 : ℝ) * 1 / (Real.log 2 * 2) = (Real.log 2)⁻¹ by
        rw [eq_comm, inv_eq_one_div]
        rw [div_eq_div_iff (ne_of_gt hlog0) (by positivity : (Real.log 2 * 2) ≠ 0)]
        ring]
      rw [Real.sqrt_inv]
      have hne : Real.sqrt (Real.log 2) ≠ 0 :=
        ne_of_gt (Real.sqrt_pos.mpr hlog0)
      field_simp
    simp only [mdaSchedule, hTr, hround, halpha]
  · rw [mdaLip_one_row_two_cols]
    have h1 : Real.sqrt (Real.log 2) * Real.sqrt 2 = Real.sqrt (Real.log 2 * 2) :=
      (Real.sqrt_mul (le_of_lt hlog0) 2).symm
    have h2 : (1 : ℝ) < Real.sqrt (Real.log 2 * 2) := by
      rw [show (1 : ℝ) = Real.sqrt 1 by rw [Real.sqrt_one]]
      apply Real.sqrt_lt_sqrt (by norm_num)
      nlinarith [Real.log_two_gt_d9]
    have h3 : (2 : ℝ) * 1 / ((1 : ℤ) : ℝ) = 2 := by norm_num
    rw [h3]
    have h4 : Real.sqrt (Real.log 2) / (1 / 2) * Real.sqrt 2
        = 2 * Real.sqrt (Real.log 2 * 2) := by
      rw [← h1]
      ring
    rw [h4]
    intro hcontra
    nlinarith [h2]

/-- **C5 as amended**: the source computes `L` by dividing the largest column
sum of `|A|` by `m = len(x)` (the number of columns, not the number of rows),
`R = sqrt(log m)` and `rho = 1`; given `epsilon > 0` the horizon is
`pyRound(2*(R*L/eps)^2/rho)` and the step size is computed from the
pre-rounding horizon, simplifying to `eps / L^2`; given a fixed horizon `T`,
`alpha = (R/L)*sqrt(2*rho/T)`; a simultaneously supplied horizon argument is
ignored in the `epsilon` branch. -/
theorem mda_schedule_formulas (A : List (List ℝ)) (m : ℕ) (eps : ℝ) (t : Option ℤ)
    (T : ℤ) (hm : 2 ≤ m) (hL : 0 < mdaLip A m) (he : 0 < eps) :
    mdaSchedule A m (some eps) t
      = some (pyRound ((Real.sqrt (Real.log (m : ℝ)) * mdaLip A m / eps) ^ 2 * 2 / 1),
          eps / (mdaLip A m) ^ 2) ∧
    mdaSchedule A m none (some T)
      = some (T, (Real.sqrt (Real.log (m : ℝ)) / mdaLip A m)
          * Real.sqrt (2 * 1 / (T : ℝ))) := by
  have hm1 : (1 : ℝ) < (m : ℝ) := by
    have : (2 : ℝ) ≤ (m : ℝ) := by exact_mod_cast hm
    linarith
  have hR : 0 < Real.sqrt (Real.log (m : ℝ)) := Real.sqrt_pos.mpr (Real.log_pos hm1)
  constructor
  · have h2 : 2 * 1 / ((Real.sqrt (Real.log (m : ℝ)) * mdaLip A m / eps) ^ 2 * 2 / 1)
        = (eps / (Real.sqrt (Real.log (m : ℝ)) * mdaLip A m)) ^ 2 := by
      field_simp
      ring
    have h3 : Real.sqrt ((eps / (Real.sqrt (Real.log (m : ℝ)) * mdaLip A m)) ^ 2)
        = eps / (Real.sqrt (Real.log (m : ℝ)) * mdaLip A m) :=
      Real.sqrt_sq (le_of_lt (div_pos he (mul_pos hR hL)))
    have h4 : (Real.sqrt (Real.log (m : ℝ)) / mdaLip A m)
        * (eps / (Real.sqrt (Real.log (m : ℝ)) * mdaLip A m)) = eps / (mdaLip A m) ^ 2 := by
      field_simp
      ring
    simp only [mdaSchedule, h2, h3, h4]
  · simp only [mdaSchedule]

/-- Witness for the amended C5 at `A = [[1,1]]`, `m = 2`, `eps = 1`, fixed
horizon `1`. -/
theorem mda_schedule_formulas_witness :
    mdaSchedule [[1, 1]] 2 (some 1) none
      = some (pyRound ((Real.sqrt (Real.log ((2 : ℕ) : ℝ)) * mdaLip [[1, 1]] 2 / 1) ^ 2
            * 2 / 1), 1 / (mdaLip [[1, 1]] 2) ^ 2) ∧
    mdaSchedule [[1, 1]] 2 none (some 1)
      = some (1, (Real.sqrt (Real.log ((2 : ℕ) : ℝ)) / mdaLip [[1, 1]] 2)
          * Real.sqrt (2 * 1 / ((1 : ℤ) : ℝ))) :=
  mda_schedule_formulas [[1, 1]] 2 1 none 1 (le_refl 2)
    (by rw [mdaLip_one_row_two_cols]; norm_num) (by norm_num)

/-- Witness for C10 at `A = [[1]]`, `b = [0]`, initial points `[2]` and `[3]`
of equal length, `T = 1`, `eig0 = 1`. -/
theorem initial_point_independence_witness :
    pgd 1 [[1]] [0] [2] none (some 1) = pgd 1 [[1]] [0] [3] none (some 1) ∧
    mda [[1]] [0] [2] none (some 1) = mda [[1]] [0] [3] none (some 1) ∧
    (pgd 1 [[1]] [0] [2] none (some 1)).map (fun tr => tr.headD [])
      = some (List.replicate ([2] : List ℝ).length (1 / (([2] : List ℝ).length : ℝ))) ∧
    (mda [[1]] [0] [2] none (some 1)).map (fun tr => tr.headD [])
      = some (List.replicate ([2] : List ℝ).length (1 / (([2] : List ℝ).length : ℝ))) :=
  initial_point_independence 1 [[1]] [0] [2] [3] 1 rfl (by norm_num)

/-- **C2** (code-bug evidence): at `A = [[1],[1]]` (two rows, one column),
`b = [0,0]`, `x = [1]`, the source's `objective` divides by `len(x) = 1` and
returns `2`, while the documented mean `(1/n) * sum_i |a_i^T x - b_i|` over the
`n = 2` rows equals `1`. -/
theorem objective_divisor_at_failing_input :
    objective ([[1], [1]] : List (List ℝ)) [0, 0] [1] = 2 ∧
    (1 / (([[1], [1]] : List (List ℝ)).length : ℝ))
        * l1norm (vsub (matvec ([[1], [1]] : List (List ℝ)) [1]) [0, 0]) = 1 ∧
    (2 : ℝ) ≠ 1 := by
  refine ⟨?_, ?_, by norm_num⟩
  · norm_num [objective, l1norm, vsub, matvec, dot]
  · norm_num [l1norm, vsub, matvec, dot]

/-- **C3** (code-bug evidence): at the same instance, the source's `subgrad`
divides by `len(x) = 1` and returns `[2]`, while the documented
`(1/n) * A^T * sign(Ax - b)` with `n = 2` the number of rows equals `[1]`;
the `sign(0) = 0` convention itself is as claimed. -/
theorem subgrad_divisor_at_failing_input :
    subgrad ([[1], [1]] : List (List ℝ)) [0, 0] [1] = [2] ∧
    (matvec (matT ([[1], [1]] : List (List ℝ)))
        ((vsub (matvec ([[1], [1]] : List (List ℝ)) [1]) [0, 0]).map sgn)).map
          (fun g => (1 / (([[1], [1]] : List (List ℝ)).length : ℝ)) * g) = [1] ∧
    sgn (0 : ℝ) = 0 := by
  refine ⟨?_, ?_, by norm_num [sgn]⟩
  · norm_num [subgrad, matvec, matT, vsub, dot, sgn, List.range_succ]
  · norm_num [matvec, matT, vsub, dot, sgn, List.range_succ]

/-- **C6**: the projection of `[3, 1, -2]` is exactly `[1, 0, 0]`; in general
every index satisfying the threshold condition is at most `rhoIdx` (the
implementation picks the largest qualifying index), and the output is
`max(v - theta, 0)` elementwise for the threshold computed at that index. -/
theorem projection_example_and_tie_break :
    project_onto_simplex ([3, 1, -2] : List ℝ) = [1, 0, 0] ∧
    (∀ (v : List ℝ) (i : ℕ), i < v.length → qualb v i = true → i ≤ rhoIdx v) ∧
    (∀ v : List ℝ, project_onto_simplex v
        = v.map (fun t =>
            max (t - (cssvL v).getD (rhoIdx v) 0 / ((rhoIdx v : ℝ) + 1)) 0)) := by
  refine ⟨?_, ?_, ?_⟩
  · norm_num [project_onto_simplex, thetaOf, rhoIdx, List.range_succ, List.filter, qualb,
      cssvL, cumsum, sortDesc, List.insertionSort, List.orderedInsert]
  · intro v i hi hq
    exact rho_greatest v hi hq
  · intro v
    rfl

/-- Witness for C6 at the tie input `[1/2, 1/2]`, where both indices `0` and
`1` satisfy the threshold condition and the largest, `1`, is selected. -/
theorem projection_example_and_tie_break_witness :
    (1 : ℕ) ≤ rhoIdx ([1 / 2, 1 / 2] : List ℝ) ∧
    project_onto_simplex ([1 / 2, 1 / 2] : List ℝ)
      = ([1 / 2, 1 / 2] : List ℝ).map (fun t =>
          max (t - (cssvL ([1 / 2, 1 / 2] : List ℝ)).getD
            (rhoIdx ([1 / 2, 1 / 2] : List ℝ)) 0
              / ((rhoIdx ([1 / 2, 1 / 2] : List ℝ) : ℝ) + 1)) 0) :=
  ⟨projection_example_and_tie_break.2.1 [1 / 2, 1 / 2] 1 (by norm_num)
      (by norm_num [qualb, cssvL, cumsum, sortDesc, List.insertionSort, List.orderedInsert]),
    projection_example_and_tie_break.2.2 [1 / 2, 1 / 2]⟩

/-- **C7 counterexample**: the all-negative input `[-1/10, -1/10]` projects to
`[1/2, 1/2]`, which is not a one-hot vector (no entry equals `1`). -/
theorem all_negative_projection_counterexample :
    project_onto_simplex ([-1 / 10, -1 / 10] : List ℝ) = [1 / 2, 1 / 2] ∧
    (1 : ℝ) ∉ project_onto_simplex ([-1 / 10, -1 / 10] : List ℝ) ∧
    (-1 / 10 : ℝ) < 0 := by
  have h : project_onto_simplex ([-1 / 10, -1 / 10] : List ℝ) = [1 / 2, 1 / 2] := by
    norm_num [project_onto_simplex, thetaOf, rhoIdx, List.range_succ, List.filter, qualb,
      cssvL, cumsum, sortDesc, List.insertionSort, List.orderedInsert]
  refine ⟨h, ?_, by norm_num⟩
  rw [h]
  norm_num

section VecMaxLemmas

variable {K : Type} [LinearOrderedField K]

lemma le_foldl_max : ∀ (l : List K) (a : K),
    a ≤ l.foldl max a ∧ ∀ t ∈ l, t ≤ l.foldl max a
  | [], a => ⟨le_refl a, fun t ht => absurd ht (List.not_mem_nil t)⟩
  | b :: t, a => by
      simp only [List.foldl_cons]
      obtain ⟨h1, h2⟩ := le_foldl_max t (max a b)
      refine ⟨le_trans (le_max_left a b) h1, ?_⟩
      intro s hs
      rcases List.mem_cons.mp hs with rfl | hs'
      · exact le_trans (le_max_right a s) h1
      · exact h2 s hs'

lemma foldl_max_mem : ∀ (l : List K) (a : K), l.foldl max a = a ∨ l.foldl max a ∈ l
  | [], _ => Or.inl rfl
  | b :: t, a => by
      simp only [List.foldl_cons]
      rcases foldl_max_mem t (max a b) with h | h
      · rcases max_cases a b with ⟨hm, _⟩ | ⟨hm, _⟩
        · exact Or.inl (by rw [h, hm])
        · exact Or.inr (by rw [h, hm]; exact List.mem_cons_self b t)
      · exact Or.inr (List.mem_cons_of_mem b h)

lemma le_vecMax (l : List K) (t : K) (ht : t ∈ l) : t ≤ vecMax l := by
  cases l with
  | nil => exact absurd ht (List.not_mem_nil t)
  | cons a r =>
      simp only [vecMax]
      rcases List.mem_cons.mp ht with rfl | ht'
      · exact (le_foldl_max r t).1
      · exact (le_foldl_max r a).2 t ht'

lemma vecMax_mem (l : List K) (hl : l ≠ []) : vecMax l ∈ l := by
  cases l with
  | nil => exact absurd rfl hl
  | cons a r =>
      simp only [vecMax]
      rcases foldl_max_mem r a with h | h
      · rw [h]
        exact List.mem_cons_self a r
      · exact List.mem_cons_of_mem a h

lemma sortDesc_getD_zero_max (v : List K) (hv : v ≠ []) :
    (sortDesc v).getD 0 0 = vecMax v := by
  have hlen : 0 < (sortDesc v).length := by
    rw [sortDesc_length]
    exact List.length_pos.mpr hv
  have hmem : (sortDesc v).getD 0 0 ∈ sortDesc v := by
    rw [List.getD_eq_get _ _ hlen]
    exact List.get_mem _ _ _
  have h1 : (sortDesc v).getD 0 0 ≤ vecMax v :=
    le_vecMax v _ ((sortDesc_perm v).mem_iff.mp hmem)
  have hMv : vecMax v ∈ sortDesc v := (sortDesc_perm v).mem_iff.mpr (vecMax_mem v hv)
  have h2 : vecMax v ≤ (sortDesc v).getD 0 0 := by
    cases hu : sortDesc v with
    | nil =>
        rw [hu] at hlen
        simp at hlen
    | cons u0 t =>
        rw [hu] at hMv
        rw [List.getD_cons_zero]
        rcases List.mem_cons.mp hMv with rfl | hM'
        · exact le_refl _
        · have hp := sortDesc_pairwise v
          rw [hu, List.pairwise_cons] at hp
          exact hp.1 _ hM'
  exact le_antisymm h1 h2

end VecMaxLemmas

section OneHotLemmas

lemma rhoIdx_eq_zero_of (v : List ℝ)
    (h : ∀ i, i < v.length → qualb v i = true → i = 0) : rhoIdx v = 0 := by
  rw [rhoIdx]
  cases hfl : (List.range v.length).filter (fun i => qualb v i) with
  | nil => rfl
  | cons a l =>
      have hne : (a :: l) ≠ [] := by simp
      rw [List.getLast?_eq_getLast _ hne, Option.getD_some]
      have hmem : (a :: l).getLast hne
          ∈ List.filter (fun i => qualb v i) (List.range v.length) := by
        rw [hfl]
        exact List.getLast_mem hne
      rw [List.mem_filter, List.mem_range] at hmem
      exact h _ hmem.1 hmem.2

lemma qualb_false_of_gap (v : List ℝ) {i : ℕ} (h1 : 1 ≤ i) (hi : i < v.length)
    (hmax : (sortDesc v).getD 0 0 = vecMax v)
    (hle : ∀ j, 1 ≤ j → j < v.length → (sortDesc v).getD j 0 ≤ vecMax v - 1) :
    qualb v i ≠ true := by
  intro hq
  rw [qualb_iff v hi] at hq
  have hiu : i < (sortDesc v).length := by
    rw [sortDesc_length]
    exact hi
  have hsucc : ((sortDesc v).take (i + 1)).sum
      = ((sortDesc v).take i).sum + (sortDesc v).getD i 0 := by
    rw [List.sum_take_succ _ _ hiu, getD_eq_getElem' _ hiu]
  have htake : ((sortDesc v).take i).sum = ∑ j ∈ Finset.range i, (sortDesc v).getD j 0 :=
    take_sum_eq_range_sum _ i (by rw [sortDesc_length]; omega)
  have hsplit : ∑ j ∈ Finset.range i, (sortDesc v).getD j 0
      = (sortDesc v).getD 0 0 + ∑ j ∈ Finset.Ico 1 i, (sortDesc v).getD j 0 := by
    rw [Finset.range_eq_Ico,
      ← Finset.sum_Ico_consecutive (fun j => (sortDesc v).getD j 0) (Nat.zero_le 1) h1,
      ← Finset.range_eq_Ico, Finset.sum_range_one]
  have hbound : ∑ j ∈ Finset.Ico 1 i, (sortDesc v).getD i 0
      ≤ ∑ j ∈ Finset.Ico 1 i, (sortDesc v).getD j 0 := by
    apply Finset.sum_le_sum
    intro j hj
    rw [Finset.mem_Ico] at hj
    exact sortDesc_getD_mono v (le_of_lt hj.2) hi
  have hconst : ∑ j ∈ Finset.Ico 1 i, (sortDesc v).getD i 0
      = ((i : ℝ) - 1) * (sortDesc v).getD i 0 := by
    rw [Finset.sum_const, Nat.card_Ico, nsmul_eq_mul, Nat.cast_sub h1, Nat.cast_one]
  have hu0 : (sortDesc v).getD i 0 ≤ (sortDesc v).getD 0 0 - 1 := by
    rw [hmax]
    exact hle i h1 hi
  have hexp1 : ((i : ℝ) - 1) * (sortDesc v).getD i 0
      = (i : ℝ) * (sortDesc v).getD i 0 - (sortDesc v).getD i 0 := by ring
  have hexp2 : ((i : ℝ) + 1) * (sortDesc v).getD i 0
      = (i : ℝ) * (sortDesc v).getD i 0 + (sortDesc v).getD i 0 := by ring
  rw [hsucc, htake, hsplit, hexp2] at hq
  rw [hconst, hexp1] at hbound
  linarith

end OneHotLemmas

/-- Sufficiency: a unique maximum with a gap of at least `1` to every other
entry makes the projection the one-hot indicator of the maximum. -/
lemma onehot_of_gap (v : List ℝ) (hv : v ≠ [])
    (hgap : ∀ t ∈ v, t = vecMax v ∨ t ≤ vecMax v - 1)
    (huniq : v.count (vecMax v) = 1) :
    project_onto_simplex v = v.map (fun t => if t = vecMax v then 1 else 0) := by
  have hlen : 0 < v.length := List.length_pos.mpr hv
  have hmax : (sortDesc v).getD 0 0 = vecMax v := sortDesc_getD_zero_max v hv
  have hcount : List.count (vecMax v) (sortDesc v) = 1 := by
    rw [(sortDesc_perm v).count_eq]
    exact huniq
  -- every entry of sortDesc v beyond index 0 is at most vecMax v - 1
  have hle : ∀ j, 1 ≤ j → j < v.length → (sortDesc v).getD j 0 ≤ vecMax v - 1 := by
    intro j hj1 hjv
    obtain ⟨j', rfl⟩ : ∃ j', j = j' + 1 := ⟨j - 1, by omega⟩
    cases hu : sortDesc v with
    | nil =>
        have hl0 := sortDesc_length v
        rw [hu] at hl0
        simp only [List.length_nil] at hl0
        omega
    | cons u0 t =>
        have hu0 : u0 = vecMax v := by
          rw [hu, List.getD_cons_zero] at hmax
          exact hmax
        have hnotmem : vecMax v ∉ t := by
          rw [hu, hu0, List.count_cons_self] at hcount
          exact List.count_eq_zero.mp (by omega)
        have hjt : j' < t.length := by
          have hl := sortDesc_length v
          rw [hu] at hl
          simp only [List.length_cons] at hl
          omega
        have hmem : t.getD j' 0 ∈ t := by
          rw [List.getD_eq_get _ _ hjt]
          exact List.get_mem _ _ _
        have hmemv : t.getD j' 0 ∈ v := by
          apply (sortDesc_perm v).mem_iff.mp
          rw [hu]
          exact List.mem_cons_of_mem u0 hmem
        have hne : t.getD j' 0 ≠ vecMax v := by
          intro h
          rw [h] at hmem
          exact hnotmem hmem
        rw [List.getD_cons_succ]
        rcases hgap _ hmemv with h | h
        · exact absurd h hne
        · exact h
  have hqual0 : ∀ i, i < v.length → qualb v i = true → i = 0 := by
    intro i hiv hq
    by_contra hne
    exact qualb_false_of_gap v (by omega) hiv hmax hle hq
  have hrho : rhoIdx v = 0 := rhoIdx_eq_zero_of v hqual0
  have htheta : thetaOf v = vecMax v - 1 := by
    rw [thetaOf, hrho, cssvL_getD v hlen, sortDesc_take_one v hv, hmax]
    norm_num
  rw [project_onto_simplex, htheta]
  apply List.map_congr_left
  intro t ht
  rcases hgap t ht with h | h
  · rw [if_pos h, h, show vecMax v - (vecMax v - 1) = (1 : ℝ) by ring,
      max_eq_left (by norm_num)]
  · have hne : t ≠ vecMax v := by
      intro he
      rw [he] at h
      linarith
    rw [if_neg hne, max_eq_right (by linarith)]

/-- The sum of the one-hot indicator of `M` over `v` counts the occurrences
of `M` in `v`. -/
lemma sum_indicator_eq_count (M : ℝ) :
    ∀ v : List ℝ, (v.map (fun t => if t = M then (1 : ℝ) else 0)).sum = (v.count M : ℝ)
  | [] => by simp
  | a :: t => by
      rw [List.map_cons, List.sum_cons, sum_indicator_eq_count M t, List.count_cons]
      by_cases h : a = M
      · rw [if_pos h, if_pos (beq_iff_eq.mpr h)]
        push_cast
        ring
      · rw [if_neg h, if_neg (fun hb => h (beq_iff_eq.mp hb))]
        push_cast
        ring

/-- Necessity: if the projection equals the one-hot indicator of the maximum,
then the maximum is unique and exceeds every other entry by at least `1`. -/
lemma gap_of_onehot (v : List ℝ) (hv : v ≠ [])
    (h : project_onto_simplex v = v.map (fun t => if t = vecMax v then 1 else 0)) :
    v.count (vecMax v) = 1 ∧ ∀ t ∈ v, t = vecMax v ∨ t ≤ vecMax v - 1 := by
  have hsum := project_sum_eq_one v hv
  rw [h, sum_indicator_eq_count] at hsum
  have hcount : v.count (vecMax v) = 1 := by exact_mod_cast hsum
  refine ⟨hcount, ?_⟩
  have hpt : ∀ t ∈ v,
      max (t - thetaOf v) 0 = (if t = vecMax v then (1 : ℝ) else 0) := by
    rw [project_onto_simplex] at h
    exact List.map_eq_map_iff.mp h
  have hM : vecMax v ∈ v := vecMax_mem v hv
  have h1 : max (vecMax v - thetaOf v) 0 = 1 := by
    have h2 := hpt _ hM
    rwa [if_pos rfl] at h2
  have htheta : thetaOf v = vecMax v - 1 := by
    rcases max_cases (vecMax v - thetaOf v) (0 : ℝ) with ⟨hm, _⟩ | ⟨hm, _⟩
    · rw [hm] at h1
      linarith
    · rw [hm] at h1
      norm_num at h1
  intro t ht
  by_cases he : t = vecMax v
  · exact Or.inl he
  · right
    have h3 := hpt t ht
    rw [if_neg he] at h3
    have hle : t - thetaOf v ≤ 0 := by
      by_contra hgt
      push_neg at hgt
      rw [max_eq_left (le_of_lt hgt)] at h3
      linarith
    rw [htheta] at hle
    linarith

/-- **C7 as amended**: all-negativity alone does not force a one-hot output
(see the counterexample); for any non-empty input — all-negative or not — the
projection equals the one-hot indicator of the largest coordinate exactly when
that largest coordinate is unique and exceeds every other coordinate by at
least `1`. -/
theorem all_negative_projection_amended (v : List ℝ) (hv : v ≠ []) :
    project_onto_simplex v = v.map (fun t => if t = vecMax v then 1 else 0)
      ↔ v.count (vecMax v) = 1 ∧ ∀ t ∈ v, t = vecMax v ∨ t ≤ vecMax v - 1 :=
  ⟨gap_of_onehot v hv, fun hc => onehot_of_gap v hv hc.2 hc.1⟩

/-- Witness for the amended C7 at `v = [-1/2, -2]`: all-negative, unique
maximum `-1/2` with gap `3/2 ≥ 1`; the projection is the one-hot `[1, 0]`. -/
theorem all_negative_projection_amended_witness :
    project_onto_simplex ([-1 / 2, -2] : List ℝ)
      = ([-1 / 2, -2] : List ℝ).map
          (fun t => if t = vecMax ([-1 / 2, -2] : List ℝ) then 1 else 0) :=
  (all_negative_projection_amended [-1 / 2, -2] (by simp)).mpr
    ⟨by norm_num [vecMax, List.count_cons, List.count_nil],
      by
        intro t ht
        simp only [vecMax, List.foldl_cons, List.foldl_nil] at *
        rcases List.mem_cons.mp ht with rfl | ht'
        · left
          norm_num
        · rcases List.mem_cons.mp ht' with rfl | ht''
          · right
            norm_num
          · exact absurd ht'' (List.not_mem_nil t)⟩

end RobustReg
